import Mathlib

/-!
Verification of the asynchronous Athena query-execution client
(`src/insights_mcp/athena.py`): SQL wrap/strip logic, the completion
poller, the paginated result fetch with header-row handling, the
describe-rows normalizer and the DDL-text facade.  Python machine-level
behaviour is embedded shallowly: strings are `String`/`List Char`,
dictionaries are insertion-ordered association lists, remote calls are
oracles returning `Except`, wall-clock time is `ℚ`, and the two
unbounded `while` loops take an explicit fuel argument.
-/

namespace Athena

/-! ## Python string primitives -/

/-- Characters stripped by Python `str.strip()` with no argument
(ASCII whitespace: space, tab, newline, carriage return, vertical tab,
form feed). -/
def isPySpace (c : Char) : Bool :=
  c = ' ' || c = '\t' || c = '\n' || c = '\x0d' || c = '\x0b' || c = '\x0c'

/-- Python `str.lstrip()` on a character list. -/
def lstripList (l : List Char) : List Char := l.dropWhile isPySpace

/-- Python `str.rstrip()` on a character list. -/
def rstripList (l : List Char) : List Char :=
  (l.reverse.dropWhile isPySpace).reverse

/-- Python `str.strip()` on a character list (right strip, then left strip;
the order is immaterial). -/
def pyStripList (l : List Char) : List Char := lstripList (rstripList l)

/-- Python `str.strip()`. -/
def pyStrip (s : String) : String := String.mk (pyStripList s.data)

/-- Python `c in s` for a single character. -/
def strContainsChar (s : String) (c : Char) : Bool :=
  s.data.any (fun x => x == c)

/-- Python `str.rstrip()`. -/
def pyRStrip (s : String) : String := String.mk (rstripList s.data)

/-- Python `str.rstrip(c)` for a single character `c`: remove the maximal
trailing run of `c`.  Defined by forward recursion to ease induction. -/
def rstripAllChar (c : Char) : List Char → List Char
  | [] => []
  | x :: xs =>
    match rstripAllChar c xs with
    | [] => if x = c then [] else [x]
    | r => x :: r

/-- Python `str.rstrip(";")` / `str.rstrip("\n")` at string level. -/
def pyRstripChar (c : Char) (s : String) : String :=
  String.mk (rstripAllChar c s.data)

/-- Python `str.split(c)` for a one-character separator, on character
lists: keeps empty chunks and returns `[[]]` on the empty string. -/
def splitOnCharList (c : Char) : List Char → List (List Char)
  | [] => [[]]
  | x :: xs =>
    if x = c then [] :: splitOnCharList c xs
    else
      match splitOnCharList c xs with
      | [] => [[x]]
      | h :: t => (x :: h) :: t

/-- Python `s.split("\t")`. -/
def pySplitTab (s : String) : List String :=
  (splitOnCharList '\t' s.data).map String.mk

/-! ## Query Submitter: `_strip_trailing_semicolon` / `_maybe_wrap_with_limit` -/

/-- Source `_strip_trailing_semicolon`:
`query.strip().rstrip(";").strip()`. -/
def stripTrailingSemicolon (query : String) : String :=
  pyStrip (pyRstripChar ';' (pyStrip query))

/-- The alternatives of the `_NON_WRAPPABLE_PREFIX` regular expression. -/
def nonWrappableKeywords : List String :=
  ["SHOW", "DESCRIBE", "EXPLAIN", "MSCK", "USE", "SET",
   "CREATE", "DROP", "ALTER", "INSERT", "UPDATE", "DELETE"]

/-- A regex word character (`\w`, ASCII). -/
def isWordChar (c : Char) : Bool := c.isAlphanum || c = '_'

/-- Whether one alternation branch of the regex matches at the start of
an already-`\s*`-trimmed character list: the keyword matches
case-insensitively and is followed by a word boundary (`\b`). -/
def matchesKeywordAt (l : List Char) (kw : String) : Bool :=
  kw.data.isPrefixOf (l.map Char.toUpper) &&
    (match l.drop kw.data.length with
     | [] => true
     | c :: _ => !(isWordChar c))

/-- Source `_NON_WRAPPABLE_PREFIX.search(q)`: the pattern
`^\s*(SHOW|DESCRIBE|EXPLAIN|MSCK|USE|SET|CREATE|DROP|ALTER|INSERT|UPDATE|DELETE)\b`
with `re.IGNORECASE`. -/
def nonWrappableMatch (s : String) : Bool :=
  nonWrappableKeywords.any (matchesKeywordAt (s.data.dropWhile isPySpace))

/-- Source `_maybe_wrap_with_limit`. -/
def maybeWrapWithLimit (query : String) (limit : Nat) : String :=
  let q := stripTrailingSemicolon query
  if nonWrappableMatch q then q
  else "SELECT * FROM (\n" ++ q ++ "\n) AS _q\nLIMIT " ++ toString limit

/-- The text `execute_query` submits to the remote service
(`query_to_run` at the top of `execute_query`): the query is wrapped
only when `enforce_limit` is true and `max_rows` is not `None`. -/
def submittedText (query : String) (maxRows : Option Nat) (enforceLimit : Bool) : String :=
  match maxRows, enforceLimit with
  | some m, true => maybeWrapWithLimit query m
  | _, _ => query

/-- Spec-side definition, following the claim wording for the wrapped
form: `SELECT * FROM (` newline, the inner statement, newline,
`) AS _q` newline, `LIMIT N`. -/
def specWrappedForm (inner : String) (n : Nat) : String :=
  "SELECT * FROM (\n" ++ inner ++ "\n) AS _q\nLIMIT " ++ toString n

/-! ## Data model

A result cell is the optional `VarCharValue` of a datum; a raw row is
the cell list `row.get("Data", [])`; a converted row is a Python dict,
modelled as an insertion-ordered association list with Python's update
semantics (`dictInsert`). -/

/-- One datum: `cell.get("VarCharValue")`. -/
abbrev Cell := Option String

/-- One raw result row: `row.get("Data", [])`. -/
abbrev RawRow := List Cell

/-- A Python dict from column name to decoded value, as an
insertion-ordered association list. -/
abbrev Dict := List (String × Option String)

/-- Python `d[k] = v`: overwrite in place when the key exists, else
append. -/
def dictInsert (d : Dict) (k : String) (v : Option String) : Dict :=
  if d.any (fun p => p.1 == k) then
    d.map (fun p => if p.1 == k then (k, v) else p)
  else d ++ [(k, v)]

/-- One entry of `ResultSetMetadata.ColumnInfo`. -/
structure ColumnInfo where
  label : String
  name : String
deriving Repr, DecidableEq

/-- Source `col["Label"] or col["Name"]`: an empty label falls back to
the name. -/
def ColumnInfo.effectiveName (c : ColumnInfo) : String :=
  if c.label = "" then c.name else c.label

/-- One `get_query_results` response. -/
structure Page where
  columnInfo : List ColumnInfo
  rows : List RawRow
  nextToken : Option Nat
deriving Repr

/-- Failures while fetching result pages: a raised remote-call error, or
the Python `IndexError` from `columns[i]` in the row-decoding loop. -/
inductive FetchErr where
  | remote (msg : String)
  | indexError
deriving Repr, DecidableEq

/-- Opaque execution statistics bag. -/
abbrev Stats := List (String × Nat)

/-- Source dataclass `QueryResult`. -/
structure QueryResult where
  columns : List String
  rows : List Dict
  queryExecutionId : String
  state : String
  statistics : Option Stats
deriving Repr, DecidableEq

/-- The part of a `get_query_execution` response that `_fetch_results`
reads: `execution["QueryExecution"].get("Statistics")`. -/
structure ExecRecord where
  statistics : Option Stats
deriving Repr, DecidableEq

/-! ## Completion Poller: `_wait_for_completion` -/

/-- Remote execution lifecycle states. -/
inductive QState where
  | queued
  | running
  | succeeded
  | failed
  | cancelled
deriving Repr, DecidableEq

/-- Source `state in ("SUCCEEDED", "FAILED", "CANCELLED")`. -/
def QState.isTerminal : QState → Bool
  | .succeeded => true
  | .failed => true
  | .cancelled => true
  | _ => false

/-- Outcome of the polling loop; `outOfFuel` marks fuel exhaustion of
the shallow embedding, not a behaviour of the source. -/
inductive PollOutcome where
  | timedOut
  | terminal (s : QState)
  | outOfFuel
deriving Repr, DecidableEq

/-- Source `_wait_for_completion` loop.  The remote status trace is
`states`; the k-th iteration happens at elapsed wall-clock time
`k * interval` (the first check at zero elapsed time), and the timeout
comparison `time.time() - start_time > self.timeout` is evaluated
before each poll, exactly as in the source. -/
def pollLoop (timeout interval : ℚ) (states : Nat → QState) : Nat → Nat → PollOutcome
  | _, 0 => .outOfFuel
  | k, fuel + 1 =>
    if (k : ℚ) * interval > timeout then .timedOut
    else if (states k).isTerminal then .terminal (states k)
    else pollLoop timeout interval states (k + 1) fuel

/-! ## Result Paginator: `_fetch_results` -/

/-- Decoding loop body `for i, cell in enumerate(row.get("Data", []))`:
`row_data[columns[i]] = cell.get("VarCharValue")`, with `none` when the
`columns[i]` lookup is out of range (Python `IndexError`). -/
def rowToDictAux (columns : List String) : List Cell → Nat → Dict → Option Dict
  | [], _, acc => some acc
  | c :: rest, i, acc =>
    match columns.get? i with
    | none => none
    | some k => rowToDictAux columns rest (i + 1) (dictInsert acc k c)

/-- Decode one raw row into a record keyed by column names. -/
def rowToDict (columns : List String) (r : RawRow) : Option Dict :=
  rowToDictAux columns r 0 []

/-- Source `max_rows is not None and len(rows) >= max_rows`. -/
def atCap (maxRows : Option Nat) (n : Nat) : Bool :=
  match maxRows with
  | some m => m ≤ n
  | none => false

/-- The row-conversion `for` loop over one page's data rows, with its
early `break` once the cap is reached. -/
def appendRows (columns : List String) (maxRows : Option Nat) :
    List RawRow → List Dict → Option (List Dict)
  | [], rows => some rows
  | r :: rest, rows =>
    match rowToDict columns r with
    | none => none
    | some d =>
      let rows' := rows ++ [d]
      if atCap maxRows rows'.length then some rows'
      else appendRows columns maxRows rest rows'

/-- Source page-size shaping: `self.max_results` by default; when
`max_rows` is set,
`max(1, min(self.max_results, remaining + (1 if is_first_page else 0)))`. -/
def pageMaxResults (cfgMax : Nat) (maxRows : Option Nat) (isFirst : Bool) (curLen : Nat) : Nat :=
  match maxRows with
  | none => cfgMax
  | some m =>
    let remaining := m - curLen
    let pageCap := remaining + (if isFirst then 1 else 0)
    max 1 (min cfgMax pageCap)

/-- State of the pagination `while` loop. -/
structure LoopState where
  columns : List String
  rows : List Dict
  nextToken : Option Nat
  isFirst : Bool

/-- Source pagination `while` loop of `_fetch_results`, generic in the
remote `get_query_results` oracle `svc` (continuation token,
`MaxResults`); `none` means fuel exhaustion of the embedding. -/
def fetchLoop (cfgMax : Nat) (svc : Option Nat → Nat → Except FetchErr Page)
    (maxRows : Option Nat) :
    Nat → LoopState → Option (Except FetchErr (List String × List Dict))
  | 0, _ => none
  | fuel + 1, st =>
    if atCap maxRows st.rows.length then some (.ok (st.columns, st.rows))
    else
      match svc st.nextToken (pageMaxResults cfgMax maxRows st.isFirst st.rows.length) with
      | .error e => some (.error e)
      | .ok page =>
        let columns := if st.isFirst then page.columnInfo.map ColumnInfo.effectiveName
                       else st.columns
        let dataRows := if st.isFirst then page.rows.drop 1 else page.rows
        match appendRows columns maxRows dataRows st.rows with
        | none => some (.error .indexError)
        | some rows' =>
          match page.nextToken with
          | none => some (.ok (columns, rows'))
          | some t =>
            if atCap maxRows rows'.length then some (.ok (columns, rows'))
            else fetchLoop cfgMax svc maxRows fuel ⟨columns, rows', some t, false⟩

/-- Source `_fetch_results`: run the pagination loop, then perform the
final `get_query_execution` statistics lookup (`finalExec`; a raised
error in that call propagates in the source — there is no handler
around it) and build the `QueryResult`. -/
def fetchResults (cfgMax : Nat) (svc : Option Nat → Nat → Except FetchErr Page)
    (finalExec : Except String ExecRecord) (qid : String)
    (maxRows : Option Nat) (fuel : Nat) : Option (Except FetchErr QueryResult) :=
  match fetchLoop cfgMax svc maxRows fuel ⟨[], [], none, true⟩ with
  | none => none
  | some (.error e) => some (.error e)
  | some (.ok (columns, rows)) =>
    match finalExec with
    | .error msg => some (.error (.remote msg))
    | .ok rec =>
      some (.ok ⟨columns, rows, qid, "SUCCEEDED", rec.statistics⟩)

/-- An Athena-shaped result store: the flat row list (synthetic header
first) addressed by offset tokens.  A request at offset `off` for `m`
rows returns the next `min m remaining` rows and a continuation token
exactly when rows remain. -/
def sliceService (allRows : List RawRow) (colInfo : List ColumnInfo) :
    Option Nat → Nat → Except FetchErr Page :=
  fun tok m =>
    let off := tok.getD 0
    .ok { columnInfo := colInfo
          rows := (allRows.drop off).take m
          nextToken := if off + m < allRows.length then some (off + m) else none }

/-! ## Query Facade: `execute_query` -/

/-- Errors surfaced by `execute_query` and the facade: the Python
exception kinds raised on each path. -/
inductive ExecErr where
  | submitError (msg : String)
  | timeoutError (msg : String)
  | clientError (msg : String)
  | runtimeError (msg : String)
  | fetchError (e : FetchErr)
deriving Repr, DecidableEq

/-- The remote query service as consumed by one `execute_query` call:
submission, the status trace seen by the poller, the
`StateChangeReason` lookup on the non-success path, the result pages,
and the final statistics lookup. -/
structure RemoteService where
  start : String → Except String String
  states : Nat → QState
  reasonLookup : Except String (Option String)
  pages : Option Nat → Nat → Except FetchErr Page
  finalExec : Except String ExecRecord

/-- Client configuration fields read by the embedded operations. -/
structure ClientConfig where
  maxResults : Nat
  pollInterval : ℚ
  timeout : ℚ
  database : String

/-- Source `execute_query`: compute `query_to_run`, submit, poll, then
on a non-`SUCCEEDED` terminal state fetch `StateChangeReason` by a
second status call and raise `RuntimeError(f"Query failed: {reason}")`;
on success fetch the results. -/
def executeQuery (cfg : ClientConfig) (svc : RemoteService) (query : String)
    (maxRows : Option Nat) (enforceLimit : Bool) (fuel : Nat) :
    Option (Except ExecErr QueryResult) :=
  match svc.start (submittedText query maxRows enforceLimit) with
  | .error e => some (.error (.submitError e))
  | .ok qid =>
    match pollLoop cfg.timeout cfg.pollInterval svc.states 0 fuel with
    | .outOfFuel => none
    | .timedOut =>
      some (.error (.timeoutError
        ("Query " ++ qid ++ " timed out after " ++ toString cfg.timeout ++ "s")))
    | .terminal st =>
      if st = QState.succeeded then
        match fetchResults cfg.maxResults svc.pages svc.finalExec qid maxRows fuel with
        | none => none
        | some (.error e) => some (.error (.fetchError e))
        | some (.ok qr) => some (.ok qr)
      else
        match svc.reasonLookup with
        | .error e => some (.error (.clientError e))
        | .ok r =>
          some (.error (.runtimeError ("Query failed: " ++ r.getD "Unknown error")))

/-! ## Schema Normalizer: `_normalize_describe_rows` -/

/-- Source `(row.get("col_name") or "")`: a missing key or a `None` or
empty value all yield the empty string. -/
def colNameValue (d : Dict) : String :=
  match d.find? (fun p => p.1 == "col_name") with
  | some (_, some v) => v
  | _ => ""

/-- Source `any(k for k in row.keys() if k != "col_name")`: some key
other than `col_name` exists and is truthy (non-empty) as a string. -/
def rowHasOtherCols (d : Dict) : Bool :=
  d.any (fun p => p.1 != "col_name" && p.1 != "")

/-- Source per-row split in `_normalize_describe_rows`:
`raw = (row.get("col_name") or "").rstrip("\n")`,
`parts = raw.split("\t")`, `parts += ["", "", ""]`, then a dict of the
first three parts, each `.strip()`-ed. -/
def splitDescribeRow (row : Dict) : Dict :=
  let raw := pyRstripChar '\n' (colNameValue row)
  let parts := pySplitTab raw ++ ["", "", ""]
  [("col_name", some (pyStrip (parts.getD 0 ""))),
   ("data_type", some (pyStrip (parts.getD 1 ""))),
   ("comment", some (pyStrip (parts.getD 2 "")))]

/-- Source `_normalize_describe_rows`. -/
def normalizeDescribeRows (result : QueryResult) : List Dict :=
  if result.rows = [] then []
  else if !(result.columns.contains "col_name") then result.rows
  else
    let hasTab := result.rows.any (fun r => strContainsChar (colNameValue r) '\t')
    let hasOtherCols := result.rows.any rowHasOtherCols
    if !hasTab || hasOtherCols then result.rows
    else result.rows.map splitDescribeRow

/-- Spec-side per-row split, following the claim wording: split the
name-field on tabs into up to three whitespace-trimmed parts (name,
type, comment), with missing trailing parts emitted as empty strings. -/
def specSplitRow (raw : String) : Dict :=
  let parts := pySplitTab raw
  [("col_name", some (pyStrip (parts.getD 0 ""))),
   ("data_type", some (pyStrip (parts.getD 1 ""))),
   ("comment", some (pyStrip (parts.getD 2 "")))]

/-- Spec-side normalizer, following the amended claim wording: rows are
split exactly when the metadata declares a `col_name` column, at least
one row's name-field contains a tab, and no row has any key other than
the name-field key (an empty-string key being ignored); on every other
input the rows pass through unchanged. -/
def specNormalize (result : QueryResult) : List Dict :=
  if result.columns.contains "col_name"
      && result.rows.any (fun r => strContainsChar (colNameValue r) '\t')
      && result.rows.all (fun r => r.all (fun p => p.1 == "col_name" || p.1 == "")) then
    result.rows.map (fun r => specSplitRow (colNameValue r))
  else result.rows

/-! ## Query Facade: `show_create_table_fq` -/

/-- Python `str(v)` on a decoded cell: `None` prints as `"None"`. -/
def pyStr (v : Option String) : String :=
  match v with
  | some s => s
  | none => "None"

/-- One line of the DDL text: source
`if col and col in row and row[col] is not None: str(row[col])`,
else `str(next(iter(row.values())))`. -/
def lineOfRow (col : Option String) (row : Dict) : String :=
  let fallback := pyStr (match row.head? with | some p => p.2 | none => none)
  match col with
  | some c =>
    if c = "" then fallback
    else
      match row.find? (fun p => p.1 == c) with
      | some (_, some v) => v
      | _ => fallback
  | none => fallback

/-- Source line accumulation and join in `show_create_table_fq`: skip
falsy (empty) rows, take the first column's value when present and
non-`None`, newline-join, and `rstrip()` the result; an empty row set
returns the empty string. -/
def showCreateTableJoin (result : QueryResult) : String :=
  if result.rows = [] then ""
  else
    let col := result.columns.head?
    let lines := (result.rows.filter (fun r => !(r.isEmpty))).map (lineOfRow col)
    pyRStrip (String.intercalate "\n" lines)

/-- Source name qualification and statement construction in
`show_create_table_fq`: strip the argument, qualify a bare name with
the configured database, and build the `SHOW CREATE TABLE` text. -/
def showCreateTableSql (database : String) (fullTableName : String) : String :=
  let name := pyStrip fullTableName
  let fq := if strContainsChar name '.' then name else database ++ "." ++ name
  "SHOW CREATE TABLE " ++ fq

/-- Source `show_create_table_fq`: build the statement, run it through
`execute_query` with `max_rows=1000` (and no limit enforcement), and
join the returned rows. -/
def showCreateTableFq (cfg : ClientConfig) (svc : RemoteService)
    (fullTableName : String) (fuel : Nat) : Option (Except ExecErr String) :=
  match executeQuery cfg svc (showCreateTableSql cfg.database fullTableName)
      (some 1000) false fuel with
  | none => none
  | some (.error e) => some (.error e)
  | some (.ok result) => some (.ok (showCreateTableJoin result))

/-! ## Claim C3: non-wrappable statements -/

/-- C3 counterexample: with a row cap requested and limit enforcement,
the non-wrappable statement `SHOW TABLES;` is not sent equal to the
caller's original string — the submitted text is stripped of its
trailing semicolon. -/
theorem submit_nonwrappable_cex :
    submittedText "SHOW TABLES;" (some 10) true = "SHOW TABLES" ∧
      submittedText "SHOW TABLES;" (some 10) true ≠ "SHOW TABLES;" :=
  ⟨rfl, by decide⟩

/-- C3 (amended): for every SQL statement whose stripped form has a
non-wrappable leading keyword, submission with a client row cap and
limit enforcement never wraps the statement: the submitted text is the
original stripped of surrounding whitespace and trailing semicolons —
in particular it equals the caller's original string whenever that
string has no surrounding whitespace and no trailing semicolon. -/
theorem submit_nonwrappable_sends_stripped (query : String) (n : Nat)
    (h : nonWrappableMatch (stripTrailingSemicolon query) = true) :
    submittedText query (some n) true = stripTrailingSemicolon query ∧
      (stripTrailingSemicolon query = query → submittedText query (some n) true = query) := by
  have h1 : submittedText query (some n) true = stripTrailingSemicolon query := by
    simp [submittedText, maybeWrapWithLimit, h]
  exact ⟨h1, fun h2 => by rw [h1, h2]⟩

/-- C3 witness: the amended claim applied to `DESCRIBE tbl` with cap 5. -/
theorem submit_nonwrappable_sends_stripped_witness :
    submittedText "DESCRIBE tbl" (some 5) true = stripTrailingSemicolon "DESCRIBE tbl" :=
  (submit_nonwrappable_sends_stripped "DESCRIBE tbl" 5 (by decide)).1

/-! ## Claim C7: the wrapped form -/

/-- C7 counterexample: `SELECT 1;;` wrapped with cap 1 strips both
trailing semicolons, so the inner statement is `SELECT 1`, not the
`SELECT 1;` that stripping a single trailing semicolon would leave. -/
theorem wrap_semicolons_cex :
    maybeWrapWithLimit "SELECT 1;;" 1 = "SELECT * FROM (\nSELECT 1\n) AS _q\nLIMIT 1" ∧
      maybeWrapWithLimit "SELECT 1;;" 1 ≠ "SELECT * FROM (\nSELECT 1;\n) AS _q\nLIMIT 1" :=
  ⟨rfl, by decide⟩

/-- C7 (amended): for every wrappable statement submitted with a
positive cap `n` and limit enforcement, the submitted text is exactly
`SELECT * FROM (` newline, the original stripped of surrounding
whitespace and of all trailing semicolons, newline, `) AS _q` newline,
`LIMIT n`; in particular `SELECT 1` with cap 1 becomes
`SELECT * FROM (\nSELECT 1\n) AS _q\nLIMIT 1`. -/
theorem submit_wrappable_wraps (query : String) (n : Nat)
    (h : nonWrappableMatch (stripTrailingSemicolon query) = false) :
    submittedText query (some n) true = specWrappedForm (stripTrailingSemicolon query) n ∧
      submittedText "SELECT 1" (some 1) true = "SELECT * FROM (\nSELECT 1\n) AS _q\nLIMIT 1" := by
  constructor
  · simp [submittedText, maybeWrapWithLimit, specWrappedForm, h]
  · rfl

/-- C7 witness: the amended claim applied to `SELECT 2` with cap 3. -/
theorem submit_wrappable_wraps_witness :
    submittedText "SELECT 2" (some 3) true = specWrappedForm (stripTrailingSemicolon "SELECT 2") 3 :=
  (submit_wrappable_wraps "SELECT 2" 3 (by decide)).1

/-! ## Claim C6: the completion poller -/

/-- Any terminal outcome of the polling loop is a state the source
returns from inside `if state in ("SUCCEEDED", "FAILED", "CANCELLED")`. -/
theorem pollLoop_terminal_isTerminal (t i : ℚ) (st : Nat → QState) :
    ∀ (fuel k : Nat) (s : QState), pollLoop t i st k fuel = .terminal s → s.isTerminal = true := by
  intro fuel
  induction fuel with
  | zero => intro k s h; simp [pollLoop] at h
  | succ n ih =>
    intro k s h
    rw [pollLoop] at h
    split at h
    · exact absurd h (by simp)
    · split at h
      · exact (PollOutcome.terminal.inj h) ▸ ‹(st k).isTerminal = true›
      · exact ih (k + 1) s h

/-- The polling loop times out exactly when no poll whose elapsed time
is within the timeout observes a terminal state.  The hypothesis on `k`
records that the previous check passed; the fuel hypothesis makes the
embedding's fuel invisible. -/
theorem pollLoop_timedOut_iff (t i : ℚ) (st : Nat → QState) (hi : 0 < i) :
    ∀ (fuel k : Nat), ((k : ℚ) - 1) * i ≤ t → t < ((k : ℚ) + (fuel : ℚ) - 1) * i →
      (pollLoop t i st k fuel = .timedOut ↔
        ∀ j : Nat, k ≤ j → (j : ℚ) * i ≤ t → (st j).isTerminal = false) := by
  intro fuel
  induction fuel with
  | zero =>
    intro k hk hf
    exfalso
    push_cast at hf
    nlinarith
  | succ n ih =>
    intro k hk hf
    rw [pollLoop]
    split
    · rename_i hgt
      simp only [true_iff]
      intro j hkj hji
      exfalso
      have hcast : (k : ℚ) ≤ (j : ℚ) := by exact_mod_cast hkj
      nlinarith
    · rename_i hle
      push_neg at hle
      split
      · rename_i hterm
        constructor
        · intro h; exact absurd h (by simp)
        · intro hall
          exact absurd hterm (by simp [hall k le_rfl hle])
      · rename_i hnterm
        have hf' : t < (((k + 1 : Nat) : ℚ) + (n : ℚ) - 1) * i := by
          push_cast
          push_cast at hf
          linarith
        have hkc : (((k + 1 : Nat) : ℚ) - 1) * i ≤ t := by push_cast; linarith
        rw [ih (k + 1) hkc hf']
        constructor
        · intro hall j hkj hji
          rcases Nat.eq_or_lt_of_le hkj with rfl | hlt
          · simpa using hnterm
          · exact hall j hlt hji
        · intro hall j hkj hji
          exact hall j (Nat.le_of_succ_le hkj) hji

/-- C6: for every polling run (positive interval, non-negative timeout,
fuel past the deadline), the elapsed-versus-timeout comparison is made
before each poll: the loop returns only SUCCEEDED, FAILED or CANCELLED;
it raises the deadline-exceeded `TimeoutError` exactly when no poll
within the timeout budget observes a terminal state; and the very first
check, at zero elapsed time, never times out — a handle already
terminal at the first poll is returned. -/
theorem poller_deadline (t i : ℚ) (st : Nat → QState) (fuel : Nat)
    (hi : 0 < i) (h0 : 0 ≤ t) (hfuel : t < ((fuel : ℚ) - 1) * i) :
    (∀ s, pollLoop t i st 0 fuel = .terminal s →
        s = QState.succeeded ∨ s = QState.failed ∨ s = QState.cancelled) ∧
      (pollLoop t i st 0 fuel = .timedOut ↔
        ∀ j : Nat, (j : ℚ) * i ≤ t → (st j).isTerminal = false) ∧
      ((st 0).isTerminal = true → pollLoop t i st 0 fuel = .terminal (st 0)) := by
  refine ⟨?_, ?_, ?_⟩
  · intro s h
    have := pollLoop_terminal_isTerminal t i st fuel 0 s h
    cases s <;> simp_all [QState.isTerminal]
  · have hk : (((0 : Nat) : ℚ) - 1) * i ≤ t := by push_cast; nlinarith
    have hf : t < (((0 : Nat) : ℚ) + (fuel : ℚ) - 1) * i := by push_cast; linarith
    rw [pollLoop_timedOut_iff t i st hi fuel 0 hk hf]
    constructor
    · intro h j
      exact h j (Nat.zero_le j)
    · intro h j _
      exact h j
  · intro hterm
    match fuel, hfuel with
    | 0, hfuel => exfalso; push_cast at hfuel; nlinarith
    | f + 1, hfuel =>
      rw [pollLoop]
      have : ¬ ((0 : Nat) : ℚ) * i > t := by push_cast; nlinarith
      rw [if_neg this, if_pos hterm]

/-- C6 witness: the spec scenario of a perpetually RUNNING handle with
timeout 2 and interval 1. -/
theorem poller_deadline_witness :
    (∀ s, pollLoop 2 1 (fun _ => QState.running) 0 4 = .terminal s →
        s = QState.succeeded ∨ s = QState.failed ∨ s = QState.cancelled) ∧
      (pollLoop 2 1 (fun _ => QState.running) 0 4 = .timedOut ↔
        ∀ j : Nat, (j : ℚ) * 1 ≤ 2 → (QState.running).isTerminal = false) ∧
      ((QState.running).isTerminal = true →
        pollLoop 2 1 (fun _ => QState.running) 0 4 = .terminal QState.running) :=
  poller_deadline 2 1 (fun _ => QState.running) 4 (by norm_num) (by norm_num) (by norm_num)

/-! ## Paginator lemmas shared by the result-fetch claims -/

/-- Total variant of `rowToDict` for stating fetch results. -/
def rowToDictD (columns : List String) (r : RawRow) : Dict :=
  (rowToDict columns r).getD []

/-- The decoding loop succeeds whenever the remaining cells fit inside
the column list. -/
theorem rowToDictAux_isSome (columns : List String) :
    ∀ (cells : List Cell) (i : Nat) (acc : Dict),
      i + cells.length ≤ columns.length → (rowToDictAux columns cells i acc).isSome := by
  intro cells
  induction cells with
  | nil => intro i acc _; simp [rowToDictAux]
  | cons c rest ih =>
    intro i acc h
    have hi : i < columns.length := by simp at h; omega
    rw [rowToDictAux]
    rw [List.get?_eq_get hi]
    exact ih (i + 1) _ (by simp at h ⊢; omega)

/-- Row decoding is total on rows no wider than the column list. -/
theorem rowToDict_isSome (columns : List String) (r : RawRow)
    (h : r.length ≤ columns.length) : (rowToDict columns r).isSome :=
  rowToDictAux_isSome columns r 0 [] (by simpa using h)

/-- The per-page conversion loop under a cap appends decoded rows until
the cap is reached. -/
theorem appendRows_cap (cols : List String) (N : Nat) :
    ∀ (pr : List RawRow) (acc : List Dict),
      acc.length < N → (∀ r ∈ pr, (rowToDict cols r).isSome) →
      appendRows cols (some N) pr acc
        = some (acc ++ (pr.take (N - acc.length)).map (rowToDictD cols)) := by
  intro pr
  induction pr with
  | nil => intro acc _ _; simp [appendRows]
  | cons r rest ih =>
    intro acc hlt hc
    obtain ⟨d, hd⟩ := Option.isSome_iff_exists.mp (hc r (by simp))
    have hdd : rowToDictD cols r = d := by simp [rowToDictD, hd]
    rw [appendRows, hd]
    simp only []
    have hlen : (acc ++ [d]).length = acc.length + 1 := by simp
    rw [hlen]
    by_cases hcap : N ≤ acc.length + 1
    · rw [if_pos (by simp [atCap]; omega)]
      have htake : N - acc.length = 1 := by omega
      rw [htake]
      simp [hdd]
    · rw [if_neg (by simp [atCap]; omega)]
      rw [ih (acc ++ [d]) (by simp; omega) (fun x hx => hc x (by simp [hx]))]
      have harith : N - acc.length = (N - (acc ++ [d]).length) + 1 := by simp; omega
      rw [harith, List.take_succ_cons]
      simp [hdd]

/-- The per-page conversion loop without a cap appends every decoded
row of the page. -/
theorem appendRows_nocap (cols : List String) :
    ∀ (pr : List RawRow) (acc : List Dict),
      (∀ r ∈ pr, (rowToDict cols r).isSome) →
      appendRows cols none pr acc = some (acc ++ pr.map (rowToDictD cols)) := by
  intro pr
  induction pr with
  | nil => intro acc _; simp [appendRows]
  | cons r rest ih =>
    intro acc hc
    obtain ⟨d, hd⟩ := Option.isSome_iff_exists.mp (hc r (by simp))
    have hdd : rowToDictD cols r = d := by simp [rowToDictD, hd]
    rw [appendRows, hd]
    simp only [atCap]
    rw [ih (acc ++ [d]) (fun x hx => hc x (by simp [hx]))]
    simp [hdd]

/-- Capped pagination over an Athena-shaped store, after the first
page: from an invariant state holding the decoded first `k` data rows
and the offset token `k + 1`, the loop finishes with the decoded first
`N` data rows (clamped to the available rows). -/
theorem fetchLoop_slice_cap (cfgMax N : Nat) (header : RawRow) (dataRows : List RawRow)
    (colInfo : List ColumnInfo)
    (hconv : ∀ r ∈ dataRows, (rowToDict (colInfo.map ColumnInfo.effectiveName) r).isSome) :
    ∀ (fuel k : Nat), k < N → k < dataRows.length → N - k + 1 ≤ fuel →
      fetchLoop cfgMax (sliceService (header :: dataRows) colInfo) (some N) fuel
          ⟨colInfo.map ColumnInfo.effectiveName,
           (dataRows.take k).map (rowToDictD (colInfo.map ColumnInfo.effectiveName)),
           some (k + 1), false⟩
        = some (.ok (colInfo.map ColumnInfo.effectiveName,
            (dataRows.take N).map (rowToDictD (colInfo.map ColumnInfo.effectiveName)))) := by
  set cols := colInfo.map ColumnInfo.effectiveName with hcols
  intro fuel
  induction fuel with
  | zero => intro k _ _ h; omega
  | succ f ih =>
    intro k hkN hkD hfuel
    rw [fetchLoop]
    have hrlen : ((dataRows.take k).map (rowToDictD cols)).length = k := by
      simp [Nat.min_eq_left (Nat.le_of_lt hkD)]
    simp only [hrlen]
    rw [if_neg (by simp [atCap]; omega)]
    simp only [sliceService, pageMaxResults, Option.getD_some, Bool.false_eq_true, if_false,
      List.drop_succ_cons, Nat.add_zero, List.length_cons]
    have happ := appendRows_cap cols N
      ((dataRows.drop k).take (max 1 (min cfgMax (N - k))))
      ((dataRows.take k).map (rowToDictD cols)) (by rw [hrlen]; exact hkN)
      (fun r hr => hconv r (List.drop_subset k dataRows (List.take_subset _ _ hr)))
    rw [hrlen] at happ
    rw [happ]
    dsimp only
    have hrows' : (dataRows.take k).map (rowToDictD cols)
        ++ ((((dataRows.drop k).take (max 1 (min cfgMax (N - k)))).take (N - k)).map (rowToDictD cols))
        = (dataRows.take (k + min (N - k) (max 1 (min cfgMax (N - k))))).map (rowToDictD cols) := by
      rw [List.take_take, List.take_add, List.map_append]
    rw [hrows']
    have hlen2 : ((dataRows.take (k + min (N - k) (max 1 (min cfgMax (N - k))))).map (rowToDictD cols)).length
        = min (k + min (N - k) (max 1 (min cfgMax (N - k)))) dataRows.length := by
      simp
    by_cases htok : k + 1 + max 1 (min cfgMax (N - k)) < dataRows.length + 1
    · rw [if_pos htok]
      dsimp only
      by_cases hcap2 : N ≤ k + min (N - k) (max 1 (min cfgMax (N - k)))
      · rw [if_pos (by simp only [atCap, hlen2]; simp; omega)]
        have heq : dataRows.take (k + min (N - k) (max 1 (min cfgMax (N - k)))) = dataRows.take N := by
          rw [List.take_eq_take]
          omega
        rw [heq]
      · rw [if_neg (by simp only [atCap, hlen2]; simp; omega)]
        have hmin : min (N - k) (max 1 (min cfgMax (N - k))) = max 1 (min cfgMax (N - k)) := by
          omega
        rw [hmin]
        have harith : k + 1 + max 1 (min cfgMax (N - k)) = (k + max 1 (min cfgMax (N - k))) + 1 := by
          omega
        rw [harith]
        exact ih (k + max 1 (min cfgMax (N - k))) (by omega) (by omega) (by omega)
    · rw [if_neg htok]
      dsimp only
      have heq : dataRows.take (k + min (N - k) (max 1 (min cfgMax (N - k)))) = dataRows.take N := by
        rw [List.take_eq_take]
        omega
      rw [heq]

/-- Capped pagination from the initial state: the first page's header
row is discarded and the loop returns the decoded first `N` data rows
(clamped to the available rows). -/
theorem fetchLoop_slice_cap_start (cfgMax N fuel : Nat) (header : RawRow)
    (dataRows : List RawRow) (colInfo : List ColumnInfo)
    (hconv : ∀ r ∈ dataRows, (rowToDict (colInfo.map ColumnInfo.effectiveName) r).isSome)
    (hN : 1 ≤ N) (hfuel : N + 2 ≤ fuel) :
    fetchLoop cfgMax (sliceService (header :: dataRows) colInfo) (some N) fuel ⟨[], [], none, true⟩
      = some (.ok (colInfo.map ColumnInfo.effectiveName,
          (dataRows.take N).map (rowToDictD (colInfo.map ColumnInfo.effectiveName)))) := by
  set cols := colInfo.map ColumnInfo.effectiveName with hcols
  match fuel, hfuel with
  | f + 1, hfuel =>
  rw [fetchLoop]
  dsimp only
  rw [if_neg (by simp [atCap]; omega)]
  simp only [sliceService, pageMaxResults, Option.getD_none, Bool.false_eq_true, if_false,
    if_true, Nat.sub_zero, List.drop_zero, List.length_cons, List.length_nil, Nat.zero_add]
  obtain ⟨m, hm⟩ : ∃ m, max 1 (min cfgMax (N + 1)) = m + 1 :=
    ⟨max 1 (min cfgMax (N + 1)) - 1, by omega⟩
  rw [hm]
  rw [List.take_succ_cons]
  simp only [List.drop_one, List.tail_cons]
  have happ := appendRows_cap cols N (dataRows.take m) [] (by simpa using hN)
    (fun r hr => hconv r (List.take_subset _ _ hr))
  rw [happ]
  simp only [List.length_nil, Nat.sub_zero, List.nil_append, List.take_take]
  by_cases htok : m + 1 < dataRows.length + 1
  · rw [if_pos htok]
    dsimp only
    have hlen2 : ((dataRows.take (min N m)).map (rowToDictD cols)).length
        = min (min N m) dataRows.length := by simp
    by_cases hcap2 : N ≤ min (min N m) dataRows.length
    · rw [if_pos (by simp only [atCap, hlen2]; simp; omega)]
      have heq : dataRows.take (min N m) = dataRows.take N := by
        rw [List.take_eq_take]; omega
      rw [heq]
    · rw [if_neg (by simp only [atCap, hlen2]; simp; omega)]
      have hmin : min N m = m := by omega
      rw [hmin]
      exact fetchLoop_slice_cap cfgMax N header dataRows colInfo hconv f m
        (by omega) (by omega) (by omega)
  · rw [if_neg htok]
    dsimp only
    have heq : dataRows.take (min N m) = dataRows.take N := by
      rw [List.take_eq_take]; omega
    rw [heq]


/-- Uncapped pagination after the first page: the loop drains and
decodes every remaining data row. -/
theorem fetchLoop_slice_nocap (cfgMax : Nat) (header : RawRow) (dataRows : List RawRow)
    (colInfo : List ColumnInfo)
    (hconv : ∀ r ∈ dataRows, (rowToDict (colInfo.map ColumnInfo.effectiveName) r).isSome)
    (hcfg : 1 ≤ cfgMax) :
    ∀ (fuel k : Nat), k < dataRows.length → dataRows.length - k + 1 ≤ fuel →
      fetchLoop cfgMax (sliceService (header :: dataRows) colInfo) none fuel
          ⟨colInfo.map ColumnInfo.effectiveName,
           (dataRows.take k).map (rowToDictD (colInfo.map ColumnInfo.effectiveName)),
           some (k + 1), false⟩
        = some (.ok (colInfo.map ColumnInfo.effectiveName,
            dataRows.map (rowToDictD (colInfo.map ColumnInfo.effectiveName)))) := by
  set cols := colInfo.map ColumnInfo.effectiveName with hcols
  intro fuel
  induction fuel with
  | zero => intro k _ h; omega
  | succ f ih =>
    intro k hkD hfuel
    rw [fetchLoop]
    rw [if_neg (by simp [atCap])]
    simp only [sliceService, pageMaxResults, Option.getD_some, Bool.false_eq_true, if_false,
      List.drop_succ_cons, List.length_cons]
    have happ := appendRows_nocap cols
      ((dataRows.drop k).take cfgMax)
      ((dataRows.take k).map (rowToDictD cols))
      (fun r hr => hconv r (List.drop_subset k dataRows (List.take_subset _ _ hr)))
    rw [happ]
    dsimp only
    have hrows' : (dataRows.take k).map (rowToDictD cols)
        ++ (((dataRows.drop k).take cfgMax).map (rowToDictD cols))
        = (dataRows.take (k + cfgMax)).map (rowToDictD cols) := by
      rw [List.take_add, List.map_append]
    rw [hrows']
    by_cases htok : k + 1 + cfgMax < dataRows.length + 1
    · rw [if_pos htok]
      dsimp only
      rw [if_neg (by simp [atCap])]
      have harith : k + 1 + cfgMax = (k + cfgMax) + 1 := by omega
      rw [harith]
      exact ih (k + cfgMax) (by omega) (by omega)
    · rw [if_neg htok]
      dsimp only
      have heq : dataRows.take (k + cfgMax) = dataRows.take dataRows.length := by
        rw [List.take_eq_take]; omega
      rw [heq, List.take_length]

/-- Uncapped pagination from the initial state: the header row is
discarded and every data row is decoded. -/
theorem fetchLoop_slice_nocap_start (cfgMax fuel : Nat) (header : RawRow)
    (dataRows : List RawRow) (colInfo : List ColumnInfo)
    (hconv : ∀ r ∈ dataRows, (rowToDict (colInfo.map ColumnInfo.effectiveName) r).isSome)
    (hcfg : 1 ≤ cfgMax) (hfuel : dataRows.length + 2 ≤ fuel) :
    fetchLoop cfgMax (sliceService (header :: dataRows) colInfo) none fuel ⟨[], [], none, true⟩
      = some (.ok (colInfo.map ColumnInfo.effectiveName,
          dataRows.map (rowToDictD (colInfo.map ColumnInfo.effectiveName)))) := by
  set cols := colInfo.map ColumnInfo.effectiveName with hcols
  match fuel, hfuel with
  | f + 1, hfuel =>
  rw [fetchLoop]
  dsimp only
  rw [if_neg (by simp [atCap])]
  simp only [sliceService, pageMaxResults, Option.getD_none, Bool.false_eq_true, if_false,
    if_true, Nat.sub_zero, List.drop_zero, List.length_cons, List.length_nil, Nat.zero_add]
  obtain ⟨m, hm⟩ : ∃ m, cfgMax = m + 1 := ⟨cfgMax - 1, by omega⟩
  rw [hm]
  rw [List.take_succ_cons]
  simp only [List.drop_one, List.tail_cons]
  have happ := appendRows_nocap cols (dataRows.take m) []
    (fun r hr => hconv r (List.take_subset _ _ hr))
  rw [happ]
  simp only [List.nil_append]
  by_cases htok : m + 1 < dataRows.length + 1
  · rw [if_pos htok]
    dsimp only
    rw [if_neg (by simp [atCap])]
    exact fetchLoop_slice_nocap (m + 1) header dataRows colInfo hconv (by omega) f m
      (by omega) (by omega)
  · rw [if_neg htok]
    dsimp only
    have heq : dataRows.take m = dataRows.take dataRows.length := by
      rw [List.take_eq_take]; omega
    rw [heq, List.take_length]

/-! ## Claims C1, C2, C4 and C10: the Result Paginator -/

/-- With distinct column names, the decoding loop appends one entry per
cell, pairing columns with cells positionally. -/
theorem rowToDictAux_zip (cols : List String) (hnodup : cols.Nodup) :
    ∀ (cells : List Cell) (i : Nat) (acc : Dict),
      acc.map Prod.fst = cols.take i → i + cells.length ≤ cols.length →
      rowToDictAux cols cells i acc = some (acc ++ (cols.drop i).zip cells) := by
  intro cells
  induction cells with
  | nil => intro i acc _ _; simp [rowToDictAux]
  | cons c rest ih =>
    intro i acc hacc hlen
    have hi : i < cols.length := by simp at hlen; omega
    rw [rowToDictAux, List.get?_eq_get hi]
    dsimp only
    have hfresh : cols.get ⟨i, hi⟩ ∉ acc.map Prod.fst := by
      rw [hacc]
      intro hmem
      obtain ⟨j, hj⟩ := List.mem_iff_get.mp hmem
      have hjlt : (j : Nat) < i := by
        have := j.isLt
        simp only [List.length_take] at this
        omega
      have hjl : (j : Nat) < cols.length := by omega
      have hget : (cols.take i).get j = cols.get ⟨j, hjl⟩ := by
        simp only [List.get_eq_getElem]
        rw [← List.getElem_take' cols hjl hjlt]
      rw [hget] at hj
      have := (hnodup.get_inj_iff).mp hj
      simp only [Fin.mk.injEq] at this
      omega
    have hins : dictInsert acc (cols.get ⟨i, hi⟩) c = acc ++ [(cols.get ⟨i, hi⟩, c)] := by
      rw [dictInsert, if_neg]
      simp only [List.any_eq_true, beq_iff_eq, not_exists, not_and]
      intro p hp hpk
      exact hfresh (hpk ▸ List.mem_map_of_mem Prod.fst hp)
    rw [hins]
    rw [ih (i + 1) (acc ++ [(cols.get ⟨i, hi⟩, c)])
      (by rw [List.map_append, hacc]
          simp only [List.map_cons, List.map_nil, List.get_eq_getElem]
          rw [← List.concat_eq_append]
          exact List.take_concat_get cols i hi)
      (by simp at hlen ⊢; omega)]
    rw [List.drop_eq_getElem_cons hi, List.zip_cons_cons]
    simp

/-- With distinct column names and exactly one cell per column, a
decoded row is the positional zip of columns with cell values. -/
theorem rowToDict_zip (cols : List String) (r : RawRow) (hnodup : cols.Nodup)
    (hlen : r.length = cols.length) : rowToDict cols r = some (cols.zip r) := by
  have := rowToDictAux_zip cols hnodup r 0 [] (by simp) (by omega)
  simpa [rowToDict] using this

/-- C4: for every successful paginated fetch with row cap `N` over a
remote result holding a header row plus at least `N` decodable data
rows, the returned `QueryResult` holds exactly `N` row records, namely
the decodings of the first `N` data rows — the header row is discarded,
never counted toward the cap and never among the returned rows, for
every page size `cfgMax`. -/
theorem fetch_cap_exact_rows (cfgMax N fuel : Nat) (header : RawRow)
    (dataRows : List RawRow) (colInfo : List ColumnInfo) (qid : String) (rec : ExecRecord)
    (hconv : ∀ r ∈ dataRows, (rowToDict (colInfo.map ColumnInfo.effectiveName) r).isSome)
    (hN : 1 ≤ N) (havail : N ≤ dataRows.length) (hfuel : N + 2 ≤ fuel) :
    fetchResults cfgMax (sliceService (header :: dataRows) colInfo) (.ok rec) qid (some N) fuel
      = some (.ok { columns := colInfo.map ColumnInfo.effectiveName,
                    rows := (dataRows.take N).map (rowToDictD (colInfo.map ColumnInfo.effectiveName)),
                    queryExecutionId := qid, state := "SUCCEEDED",
                    statistics := rec.statistics })
      ∧ ((dataRows.take N).map (rowToDictD (colInfo.map ColumnInfo.effectiveName))).length = N := by
  constructor
  · rw [fetchResults, fetchLoop_slice_cap_start cfgMax N fuel header dataRows colInfo hconv hN hfuel]
  · simp
    omega

/-- C4 witness: page size 1 (a multi-page fetch whose first page is
only the header), cap 2 over 3 data rows. -/
theorem fetch_cap_exact_rows_witness :
    fetchResults 1 (sliceService [[some "h"] , [some "1"], [some "2"], [some "3"]] [⟨"c", "n"⟩])
        (.ok ⟨some [("bytes", 7)]⟩) "qw" (some 2) 10
      = some (.ok { columns := ["c"],
                    rows := ([[some "1"], [some "2"]] : List RawRow).map (rowToDictD ["c"]),
                    queryExecutionId := "qw", state := "SUCCEEDED",
                    statistics := some [("bytes", 7)] })
      ∧ (([[some "1"], [some "2"]] : List RawRow).map (rowToDictD ["c"])).length = 2 := by
  have h := fetch_cap_exact_rows 1 2 10 [some "h"] [[some "1"], [some "2"], [some "3"]] [⟨"c", "n"⟩]
    "qw" ⟨some [("bytes", 7)]⟩ (by decide) (by decide) (by decide) (by decide)
  simpa using h

/-- C2 counterexample: a fetched data row carrying fewer cells than
the declared two columns produces a row record with a single key, so
its keys are not the declared column list. -/
theorem fetch_row_keys_cex :
    fetchResults 10 (sliceService [[some "h", some "h2"], [some "x"]]
        [⟨"a", "n1"⟩, ⟨"b", "n2"⟩]) (.ok ⟨none⟩) "q" none 5
      = some (.ok { columns := ["a", "b"], rows := [[("a", some "x")]],
                    queryExecutionId := "q", state := "SUCCEEDED", statistics := none })
      ∧ List.map Prod.fst [(("a" : String), some "x")] ≠ ["a", "b"] :=
  ⟨rfl, by decide⟩

/-- C2 (amended): for every `QueryResult` produced by the paginator
from pages whose data rows each carry exactly one cell per declared
column, with distinct declared names, every row record's keys are
exactly the declared columns in order — each record is the positional
zip of the columns with the row's cells, so an absent cell value
appears as an explicit null under its column key, never as an empty
string and never as an omitted key.  Rows narrower than the column
list, as in the counterexample, yield records with missing keys. -/
theorem fetch_row_keys (cfgMax fuel : Nat) (maxRows : Option Nat) (header : RawRow)
    (dataRows : List RawRow) (colInfo : List ColumnInfo) (qid : String) (rec : ExecRecord)
    (hnodup : (colInfo.map ColumnInfo.effectiveName).Nodup)
    (hwidth : ∀ r ∈ dataRows, r.length = (colInfo.map ColumnInfo.effectiveName).length)
    (hcfg : 1 ≤ cfgMax)
    (hpos : ∀ n, maxRows = some n → 1 ≤ n)
    (hfuel : dataRows.length + maxRows.getD 0 + 2 ≤ fuel) :
    fetchResults cfgMax (sliceService (header :: dataRows) colInfo) (.ok rec) qid maxRows fuel
      = some (.ok { columns := colInfo.map ColumnInfo.effectiveName,
                    rows := (match maxRows with
                             | some n => dataRows.take n
                             | none => dataRows).map
                        (fun r => (colInfo.map ColumnInfo.effectiveName).zip r),
                    queryExecutionId := qid, state := "SUCCEEDED",
                    statistics := rec.statistics })
      ∧ ∀ d ∈ (match maxRows with
               | some n => dataRows.take n
               | none => dataRows).map
            (fun r => (colInfo.map ColumnInfo.effectiveName).zip r),
          d.map Prod.fst = colInfo.map ColumnInfo.effectiveName := by
  set cols := colInfo.map ColumnInfo.effectiveName with hcols
  have hconv : ∀ r ∈ dataRows, (rowToDict cols r).isSome :=
    fun r hr => rowToDict_isSome cols r (Nat.le_of_eq (hwidth r hr))
  have hzip : ∀ r ∈ dataRows, rowToDictD cols r = cols.zip r := by
    intro r hr
    rw [rowToDictD, rowToDict_zip cols r hnodup (hwidth r hr)]
    rfl
  have hkeys : ∀ d ∈ (match maxRows with
               | some n => dataRows.take n
               | none => dataRows).map (fun r => cols.zip r),
      d.map Prod.fst = cols := by
    intro d hd
    obtain ⟨r, hr, rfl⟩ := List.mem_map.mp hd
    have hrmem : r ∈ dataRows := by
      cases maxRows with
      | none => exact hr
      | some n => exact List.take_subset n dataRows hr
    exact List.map_fst_zip cols r (Nat.le_of_eq (hwidth r hrmem).symm)
  refine ⟨?_, hkeys⟩
  match maxRows, hpos, hfuel with
  | none, hpos, hfuel =>
    rw [fetchResults, fetchLoop_slice_nocap_start cfgMax fuel header dataRows colInfo hconv hcfg
      (by simpa using hfuel)]
    dsimp only
    rw [List.map_congr_left hzip]
  | some n, hpos, hfuel =>
    rw [fetchResults, fetchLoop_slice_cap_start cfgMax n fuel header dataRows colInfo hconv
      (hpos n rfl) (by simp at hfuel; omega)]
    dsimp only
    rw [List.map_congr_left (fun r hr => hzip r (List.take_subset n dataRows hr))]

/-- C2 witness: an uncapped fetch of one two-column row whose second
cell value is absent. -/
theorem fetch_row_keys_witness :
    fetchResults 3 (sliceService [[some "ha", some "hb"], [some "1", none]]
        [⟨"a", "n1"⟩, ⟨"b", "n2"⟩]) (.ok ⟨none⟩) "qw2" none 6
      = some (.ok { columns := ["a", "b"],
                    rows := [[("a", some "1"), ("b", none)]],
                    queryExecutionId := "qw2", state := "SUCCEEDED", statistics := none })
      ∧ ∀ d ∈ ([[some "1", none]] : List RawRow).map
            (fun r => (["a", "b"] : List String).zip r),
          d.map Prod.fst = ["a", "b"] := by
  have h := fetch_row_keys 3 6 none [some "ha", some "hb"] [[some "1", none]]
    [⟨"a", "n1"⟩, ⟨"b", "n2"⟩] "qw2" ⟨none⟩ (by decide) (by decide) (by decide)
    (fun n h => by cases h) (by decide)
  simpa using h


/-- C10: row decoding indexes the column list positionally with no
bounds check: decoding is total on every row no wider than the column
list (and a whole fetch of such rows succeeds), while a first-page row
wider than the declared columns makes the fetch fault with the
`IndexError` of `columns[i]`. -/
theorem row_decoding_bounds (cfgMax fuel : Nat) (header : RawRow)
    (dataRows : List RawRow) (colInfo : List ColumnInfo) (qid : String) (rec : ExecRecord)
    (hwidth : ∀ r ∈ dataRows, r.length ≤ (colInfo.map ColumnInfo.effectiveName).length)
    (hcfg : 1 ≤ cfgMax) (hfuel : dataRows.length + 2 ≤ fuel) :
    (∀ (cols : List String) (r : RawRow), r.length ≤ cols.length → (rowToDict cols r).isSome) ∧
      fetchResults cfgMax (sliceService (header :: dataRows) colInfo) (.ok rec) qid none fuel
        = some (.ok { columns := colInfo.map ColumnInfo.effectiveName,
                      rows := dataRows.map (rowToDictD (colInfo.map ColumnInfo.effectiveName)),
                      queryExecutionId := qid, state := "SUCCEEDED",
                      statistics := rec.statistics }) ∧
      fetchResults 10 (sliceService [[some "h"], [some "x", some "y"]] [⟨"c", ""⟩])
          (.ok ⟨none⟩) "q" none 5 = some (.error .indexError) := by
  refine ⟨fun cols r h => rowToDict_isSome cols r h, ?_, rfl⟩
  rw [fetchResults, fetchLoop_slice_nocap_start cfgMax fuel header dataRows colInfo
    (fun r hr => rowToDict_isSome _ r (hwidth r hr)) hcfg hfuel]

/-- C10 witness: an in-bounds fetch (one column, rows of width one)
next to the out-of-bounds fault. -/
theorem row_decoding_bounds_witness :
    (∀ (cols : List String) (r : RawRow), r.length ≤ cols.length → (rowToDict cols r).isSome) ∧
      fetchResults 2 (sliceService [[some "hh"], [none], [some "z"]] [⟨"k", "n"⟩])
          (.ok ⟨none⟩) "qw3" none 7
        = some (.ok { columns := ["k"],
                      rows := ([[none], [some "z"]] : List RawRow).map (rowToDictD ["k"]),
                      queryExecutionId := "qw3", state := "SUCCEEDED",
                      statistics := none }) ∧
      fetchResults 10 (sliceService [[some "h"], [some "x", some "y"]] [⟨"c", ""⟩])
          (.ok ⟨none⟩) "q" none 5 = some (.error .indexError) := by
  have h := row_decoding_bounds 2 7 [some "hh"] [[none], [some "z"]] [⟨"k", "n"⟩] "qw3" ⟨none⟩
    (by decide) (by decide) (by decide)
  simpa using h

/-- C1 counterexample: with row pagination succeeding and the final
statistics lookup raising, `_fetch_results` propagates the error — no
`QueryResult` is returned, so the statistics failure is not swallowed. -/
theorem stats_failure_propagates_cex :
    fetchResults 10 (sliceService [[some "h"], [some "x"]] [⟨"c", "n"⟩])
        (.error "stats down") "q" none 5
      = some (.error (.remote "stats down")) ∧
      ∀ qr : QueryResult,
        fetchResults 10 (sliceService [[some "h"], [some "x"]] [⟨"c", "n"⟩])
            (.error "stats down") "q" none 5 ≠ some (.ok qr) := by
  refine ⟨rfl, fun qr h => ?_⟩
  have h2 : (some (Except.error (FetchErr.remote "stats down"))
      : Option (Except FetchErr QueryResult)) = some (.ok qr) := h
  exact Except.noConfusion (Option.some.inj h2)

/-- C1 (amended): after pagination completes, the final statistics
lookup is attached to the result; a lookup that succeeds always yields
the column/row data with whatever statistics value it carried (absent
statistics give an absent field, not an error), but a lookup that
raises propagates to the caller, exactly as row-fetch failures do. -/
theorem fetch_statistics_paths (cfgMax fuel : Nat)
    (svc : Option Nat → Nat → Except FetchErr Page) (qid : String) (maxRows : Option Nat) :
    (∀ cols rows, fetchLoop cfgMax svc maxRows fuel ⟨[], [], none, true⟩ = some (.ok (cols, rows)) →
        (∀ msg, fetchResults cfgMax svc (.error msg) qid maxRows fuel
            = some (.error (.remote msg))) ∧
        (∀ rec, fetchResults cfgMax svc (.ok rec) qid maxRows fuel
            = some (.ok ⟨cols, rows, qid, "SUCCEEDED", rec.statistics⟩))) ∧
      (∀ e, fetchLoop cfgMax svc maxRows fuel ⟨[], [], none, true⟩ = some (.error e) →
        ∀ fx, fetchResults cfgMax svc fx qid maxRows fuel = some (.error e)) := by
  constructor
  · intro cols rows h
    constructor
    · intro msg
      rw [fetchResults, h]
    · intro rec
      rw [fetchResults, h]
  · intro e h fx
    rw [fetchResults, h]

/-- C1 witness: a successful pagination whose statistics lookup
raises propagates the raised error. -/
theorem fetch_statistics_paths_witness :
    fetchResults 10 (sliceService [[some "h"], [some "y"]] [⟨"d", "n"⟩])
        (Except.error "boom") "q2" none 6
      = some (.error (.remote "boom")) :=
  ((fetch_statistics_paths 10 6 (sliceService [[some "h"], [some "y"]] [⟨"d", "n"⟩]) "q2" none).1
    ["d"] [[("d", some "y")]] rfl).1 "boom"


/-! ## Claim C8: execute_query terminal-state handling -/

/-- A `QueryResult` built by `_fetch_results` always carries the
state string `SUCCEEDED`. -/
theorem fetchResults_ok_state (cfgMax : Nat) (svc : Option Nat → Nat → Except FetchErr Page)
    (fe : Except String ExecRecord) (qid : String) (maxRows : Option Nat) (fuel : Nat)
    (qr : QueryResult) :
    fetchResults cfgMax svc fe qid maxRows fuel = some (.ok qr) → qr.state = "SUCCEEDED" := by
  intro h
  rw [fetchResults] at h
  split at h
  · exact absurd h (by simp)
  · exact absurd h (by simp)
  · split at h
    · exact absurd h (by simp)
    · have := Except.ok.inj (Option.some.inj h)
      rw [← this]

/-- C8: `execute_query` returns a result only when polling observed
the remote SUCCEEDED state (and the result's state field says so); on a
FAILED or CANCELLED terminal state it raises
`RuntimeError("Query failed: " ++ reason)` with the reason text
obtained from a dedicated second status call; and on the success path
the outcome is independent of the reason-lookup interaction — no reason
lookup occurs before fetching results. -/
theorem run_and_wait_terminal (cfg : ClientConfig) (svc : RemoteService) (query : String)
    (maxRows : Option Nat) (enforceLimit : Bool) (fuel : Nat) :
    (∀ qr, executeQuery cfg svc query maxRows enforceLimit fuel = some (.ok qr) →
        pollLoop cfg.timeout cfg.pollInterval svc.states 0 fuel = .terminal .succeeded ∧
          qr.state = "SUCCEEDED") ∧
      (∀ st qid r, pollLoop cfg.timeout cfg.pollInterval svc.states 0 fuel = .terminal st →
        (st = QState.failed ∨ st = QState.cancelled) →
        svc.start (submittedText query maxRows enforceLimit) = .ok qid →
        svc.reasonLookup = .ok (some r) →
        executeQuery cfg svc query maxRows enforceLimit fuel
          = some (.error (.runtimeError ("Query failed: " ++ r)))) ∧
      (∀ rl₁ rl₂,
        pollLoop cfg.timeout cfg.pollInterval svc.states 0 fuel = .terminal .succeeded →
        executeQuery cfg { svc with reasonLookup := rl₁ } query maxRows enforceLimit fuel
          = executeQuery cfg { svc with reasonLookup := rl₂ } query maxRows enforceLimit fuel) := by
  refine ⟨?_, ?_, ?_⟩
  · intro qr h
    rw [executeQuery] at h
    split at h
    · exact absurd h (by simp)
    · rename_i qid hstart
      split at h
      · exact absurd h (by simp)
      · exact absurd h (by simp)
      · rename_i st hpoll
        split at h
        · rename_i hst
          subst hst
          refine ⟨hpoll, ?_⟩
          split at h
          · exact absurd h (by simp)
          · exact absurd h (by simp)
          · rename_i qr2 hfetch
            have hq := Except.ok.inj (Option.some.inj h)
            subst hq
            exact fetchResults_ok_state _ _ _ _ _ _ _ hfetch
        · split at h
          · exact absurd h (by simp)
          · exact absurd h (by simp)
  · intro st qid r hpoll hfc hstart hreason
    rw [executeQuery, hstart, hpoll]
    have hne : ¬ st = QState.succeeded := by
      rcases hfc with rfl | rfl <;> simp
    dsimp only
    rw [if_neg hne, hreason]
    rfl
  · intro rl₁ rl₂ hpoll
    rw [executeQuery, executeQuery]
    dsimp only
    rw [hpoll]
    cases hstart : svc.start (submittedText query maxRows enforceLimit) with
    | error e => rfl
    | ok qid =>
      dsimp only
      rw [if_pos rfl, if_pos rfl]


/-- C8 witness: a handle that polls FAILED with reason text
`syntax error` raises the corresponding `RuntimeError`. -/
theorem run_and_wait_terminal_witness :
    executeQuery ⟨100, 1, 10, "db"⟩
        ⟨fun _ => .ok "idW", fun _ => QState.failed, .ok (some "syntax error"),
         sliceService [[some "h"]] [], .ok ⟨none⟩⟩ "SELECT *" none false 3
      = some (.error (.runtimeError ("Query failed: " ++ "syntax error"))) :=
  (run_and_wait_terminal ⟨100, 1, 10, "db"⟩
      ⟨fun _ => .ok "idW", fun _ => QState.failed, .ok (some "syntax error"),
       sliceService [[some "h"]] [], .ok ⟨none⟩⟩ "SELECT *" none false 3).2.1
    QState.failed "idW" "syntax error"
    (by norm_num [pollLoop, QState.isTerminal]) (Or.inl rfl) rfl rfl


/-! ## Claim C9: show_create_table_fq -/

/-- C9: for every successful DDL-text fetch whose result is the
single nonempty-named text column with a value in every row, the
returned string is the column's values row by row, newline-joined, with
trailing whitespace trimmed; an empty row set yields the empty string; a
bare table name (no dot after stripping) is qualified with the
configured default database; and `show_create_table_fq` returns exactly
the join of the `execute_query` result. -/
theorem ddl_text_join (database : String) :
    (∀ (c : String) (vs : List String) (qid st : String) (stats : Option Stats),
      c ≠ "" →
      showCreateTableJoin ⟨[c], vs.map (fun v => [(c, some v)]), qid, st, stats⟩
        = pyRStrip (String.intercalate "\n" vs)) ∧
      (∀ (cols : List String) (qid st : String) (stats : Option Stats),
        showCreateTableJoin ⟨cols, [], qid, st, stats⟩ = "") ∧
      (∀ name : String, strContainsChar (pyStrip name) '.' = false →
        showCreateTableSql database name
          = "SHOW CREATE TABLE " ++ (database ++ "." ++ pyStrip name)) ∧
      (∀ (cfg : ClientConfig) (svc : RemoteService) (name : String) (fuel : Nat)
          (result : QueryResult),
        executeQuery cfg svc (showCreateTableSql cfg.database name) (some 1000) false fuel
          = some (.ok result) →
        showCreateTableFq cfg svc name fuel = some (.ok (showCreateTableJoin result))) := by
  refine ⟨?_, ?_, ?_, ?_⟩
  · intro c vs qid st stats hc
    rw [showCreateTableJoin]
    by_cases hvs : vs = []
    · subst hvs
      rfl
    · rw [if_neg (by simpa using hvs)]
      dsimp only
      have hfilter : (vs.map (fun v => [(c, some v)])).filter (fun r => !(r.isEmpty))
          = vs.map (fun v => [(c, some v)]) := by
        rw [List.filter_eq_self]
        intro a ha
        obtain ⟨v, _, rfl⟩ := List.mem_map.mp ha
        rfl
      rw [hfilter, List.map_map]
      simp only [List.head?_cons]
      have hline : ∀ v ∈ vs, (lineOfRow (some c) ∘ fun v => [(c, some v)]) v = id v := by
        intro v _
        simp only [Function.comp_apply, id_eq]
        simp [lineOfRow, hc, List.find?]
      rw [List.map_congr_left hline, List.map_id]
  · intro cols qid st stats
    rfl
  · intro name h
    simp [showCreateTableSql, h]
  · intro cfg svc name fuel result h
    rw [showCreateTableFq, h]


/-- C9 witness: a two-row single-column result joins to the two lines
with the trailing blanks trimmed. -/
theorem ddl_text_join_witness :
    showCreateTableJoin ⟨["stmt"], (["CREATE TABLE t (", "  x int)  "] : List String).map
        (fun v => [("stmt", some v)]), "qd", "SUCCEEDED", none⟩
      = pyRStrip (String.intercalate "
" ["CREATE TABLE t (", "  x int)  "]) :=
  (ddl_text_join "dw").1 "stmt" ["CREATE TABLE t (", "  x int)  "] "qd" "SUCCEEDED" none
    (by decide)


/-! ## Claim C5: the Schema Normalizer heuristic -/

/-- Keep all chunks but the last unchanged and apply `f` to the last
chunk. -/
def modLast (f : List Char → List Char) : List (List Char) → List (List Char)
  | [] => []
  | [a] => [f a]
  | a :: b :: rest => a :: modLast f (b :: rest)

/-- A split always yields at least one chunk. -/
theorem splitOnCharList_ne_nil (c : Char) (l : List Char) : splitOnCharList c l ≠ [] := by
  induction l with
  | nil => simp [splitOnCharList]
  | cons x xs ih =>
    rw [splitOnCharList]
    split
    · simp
    · split
      · simp
      · simp

/-- Stripping a trailing run empties the list exactly when the list is
a run of that character. -/
theorem rstripAllChar_eq_nil_iff (c : Char) (l : List Char) :
    rstripAllChar c l = [] ↔ ∀ y ∈ l, y = c := by
  induction l with
  | nil => simp [rstripAllChar]
  | cons x xs ih =>
    rw [rstripAllChar]
    constructor
    · intro h
      split at h
      · rename_i hnil
        split at h
        · rename_i hx
          intro y hy
          rcases List.mem_cons.mp hy with rfl | hmem
          · exact hx
          · exact (ih.mp hnil) y hmem
        · exact absurd h (by simp)
      · exact absurd h (by simp)
    · intro h
      have hxs : rstripAllChar c xs = [] := ih.mpr (fun y hy => h y (List.mem_cons_of_mem x hy))
      rw [hxs]
      simp [h x (List.mem_cons_self x xs)]

/-- A list free of the separator splits into itself. -/
theorem splitOnCharList_of_not_mem (c : Char) (l : List Char) (h : ∀ y ∈ l, y ≠ c) :
    splitOnCharList c l = [l] := by
  induction l with
  | nil => rfl
  | cons x xs ih =>
    rw [splitOnCharList]
    rw [if_neg (h x (List.mem_cons_self x xs))]
    rw [ih (fun y hy => h y (List.mem_cons_of_mem x hy))]

/-- A single-chunk split returns the whole list. -/
theorem splitOnCharList_singleton (c : Char) (l : List Char) (h : List Char)
    (heq : splitOnCharList c l = [h]) : h = l := by
  induction l generalizing h with
  | nil => simp [splitOnCharList] at heq; exact heq
  | cons x xs ih =>
    rw [splitOnCharList] at heq
    split at heq
    · rename_i hx
      have := splitOnCharList_ne_nil c xs
      simp at heq
      exact absurd heq.2 this
    · rename_i hx
      rcases hsplit : splitOnCharList c xs with _ | ⟨hh, tt⟩
      · exact absurd hsplit (splitOnCharList_ne_nil c xs)
      · rw [hsplit] at heq
        simp at heq
        obtain ⟨h1, h2⟩ := heq
        have : hh = xs := by
          apply ih
          rw [hsplit, h2]
        rw [← h1, this]


/-- The modifier acts past the head when more chunks follow. -/
theorem modLast_cons (f : List Char → List Char) (a : List Char) (l : List (List Char))
    (h : l ≠ []) : modLast f (a :: l) = a :: modLast f l := by
  cases l with
  | nil => exact absurd rfl h
  | cons b rest => rfl

/-- Removing trailing newlines before splitting on tabs is the same as
splitting first and removing trailing newlines from the last chunk. -/
theorem splitOnCharList_rstripAllChar (l : List Char) :
    splitOnCharList '\t' (rstripAllChar '\n' l)
      = modLast (rstripAllChar '\n') (splitOnCharList '\t' l) := by
  induction l with
  | nil => rfl
  | cons x xs ih =>
    rw [rstripAllChar]
    rcases hR : rstripAllChar '\n' xs with _ | ⟨r0, rr⟩
    · have hall : ∀ y ∈ xs, y = '\n' := (rstripAllChar_eq_nil_iff _ _).mp hR
      have hnotab : ∀ y ∈ xs, y ≠ '\t' := fun y hy => by rw [hall y hy]; decide
      have hsplit_xs : splitOnCharList '\t' xs = [xs] :=
        splitOnCharList_of_not_mem _ _ hnotab
      dsimp only
      by_cases hx : x = '\n'
      · have hxt : ¬ x = '\t' := by rw [hx]; decide
        rw [if_pos hx]
        conv_rhs => rw [splitOnCharList, if_neg hxt, hsplit_xs]
        dsimp only [modLast]
        rw [rstripAllChar, hR]
        dsimp only
        rw [if_pos hx]
        rfl
      · rw [if_neg hx]
        by_cases hxt : x = '\t'
        · rw [splitOnCharList, if_pos hxt]
          conv_rhs => rw [splitOnCharList, if_pos hxt, hsplit_xs]
          rw [modLast_cons _ _ _ (by simp)]
          dsimp only [modLast, splitOnCharList]
          rw [hR]
        · rw [splitOnCharList, if_neg hxt]
          conv_rhs => rw [splitOnCharList, if_neg hxt, hsplit_xs]
          dsimp only [modLast, splitOnCharList]
          rw [rstripAllChar, hR]
          dsimp only
          rw [if_neg hx]
    · dsimp only
      rw [hR] at ih
      by_cases hxt : x = '\t'
      · rw [splitOnCharList, if_pos hxt, ih]
        conv_rhs => rw [splitOnCharList, if_pos hxt]
        rw [modLast_cons _ _ _ (splitOnCharList_ne_nil _ _)]
      · rw [splitOnCharList, if_neg hxt]
        rcases hS : splitOnCharList '\t' xs with _ | ⟨s0, ss⟩
        · exact absurd hS (splitOnCharList_ne_nil _ _)
        · rcases ss with _ | ⟨s1, ss'⟩
          · have hs0 : s0 = xs := splitOnCharList_singleton _ _ _ hS
            rw [hS] at ih
            dsimp only [modLast] at ih
            rw [ih]
            conv_rhs => rw [splitOnCharList, if_neg hxt, hS]
            dsimp only [modLast]
            subst hs0
            rw [hR]
            conv_rhs => rw [rstripAllChar, hR]
          · rw [hS] at ih
            dsimp only [modLast] at ih
            rw [ih]
            conv_rhs => rw [splitOnCharList, if_neg hxt, hS]
            dsimp only [modLast]

/-- Dropping a satisfying prefix skips a fully-satisfying first part. -/
theorem dropWhile_append_all (p : Char → Bool) (u v : List Char)
    (h : ∀ y ∈ u, p y = true) : (u ++ v).dropWhile p = v.dropWhile p := by
  induction u with
  | nil => rfl
  | cons a u' ih =>
    rw [List.cons_append, List.dropWhile_cons]
    rw [h a (List.mem_cons_self a u')]
    exact ih (fun y hy => h y (List.mem_cons_of_mem a hy))

/-- A trailing all-whitespace block does not affect a right strip. -/
theorem rstripList_append_spaces (a b : List Char)
    (h : ∀ y ∈ b, isPySpace y = true) : rstripList (a ++ b) = rstripList a := by
  rw [rstripList, rstripList, List.reverse_append]
  rw [dropWhile_append_all isPySpace b.reverse a.reverse
    (fun y hy => h y (List.mem_reverse.mp hy))]

/-- A trailing all-whitespace block does not affect a full strip. -/
theorem pyStripList_append_spaces (a b : List Char)
    (h : ∀ y ∈ b, isPySpace y = true) : pyStripList (a ++ b) = pyStripList a := by
  rw [pyStripList, pyStripList, rstripList_append_spaces a b h]

/-- A list is its stripped form followed by the removed trailing run. -/
theorem rstripAllChar_decomp (c : Char) (l : List Char) :
    ∃ k, l = rstripAllChar c l ++ List.replicate k c := by
  induction l with
  | nil => exact ⟨0, rfl⟩
  | cons x xs ih =>
    obtain ⟨k, hk⟩ := ih
    rw [rstripAllChar]
    rcases hR : rstripAllChar c xs with _ | ⟨r0, rr⟩
    · rw [hR] at hk
      by_cases hx : x = c
      · refine ⟨k + 1, ?_⟩
        rw [if_pos hx]
        simp only [List.nil_append] at hk ⊢
        rw [List.replicate_succ, hx, hk]
      · refine ⟨k, ?_⟩
        rw [if_neg hx]
        simp only [List.nil_append] at hk
        rw [hk]
        rfl
    · rw [hR] at hk
      exact ⟨k, by rw [List.cons_append, ← hk]⟩

/-- Removing a trailing run of a whitespace character does not change
the stripped form. -/
theorem pyStripList_rstripAllChar (c : Char) (l : List Char) (hc : isPySpace c = true) :
    pyStripList (rstripAllChar c l) = pyStripList l := by
  obtain ⟨k, hk⟩ := rstripAllChar_decomp c l
  conv_rhs => rw [hk]
  rw [pyStripList_append_spaces _ _ (fun y hy => by
    rw [List.eq_of_mem_replicate hy]; exact hc)]

/-- Chunks read through a strip are unchanged by a strip-invariant
modification of the last chunk. -/
theorem modLast_getD_strip (f : List Char → List Char)
    (hf : ∀ u, pyStripList (f u) = pyStripList u) :
    ∀ (S : List (List Char)) (i : Nat),
      pyStripList ((modLast f S).getD i []) = pyStripList (S.getD i []) := by
  intro S
  induction S with
  | nil => intro i; rfl
  | cons a rest ih =>
    intro i
    cases rest with
    | nil =>
      cases i with
      | zero => exact hf a
      | succ j => rfl
    | cons b rest' =>
      rw [modLast]
      cases i with
      | zero => rfl
      | succ j =>
        simp only [List.getD_cons_succ]
        exact ih j

/-- The `parts += ["", "", ""]` padding makes the first three lookups
total without changing present entries. -/
theorem pad3_getD (A : List String) (i : Nat) (h : i < 3) :
    (A ++ ["", "", ""]).getD i "" = A.getD i "" := by
  rw [List.getD_eq_getElem?_getD, List.getD_eq_getElem?_getD, List.getElem?_append]
  rcases Nat.lt_or_ge i A.length with hi | hi
  · rw [if_pos hi]
  · rw [if_neg (by omega)]
    rw [List.getElem?_eq_none (by omega : A.length ≤ i)]
    have h3 : i - A.length < 3 := by omega
    set j := i - A.length with hj
    interval_cases j <;> rfl

/-- Indexing a list of strings built from character lists. -/
theorem map_mk_getD (S : List (List Char)) (i : Nat) :
    (S.map String.mk).getD i "" = String.mk (S.getD i []) := by
  rw [List.getD_eq_getElem?_getD, List.getD_eq_getElem?_getD, List.getElem?_map]
  cases hS : S[i]? with
  | none => rfl
  | some u => rfl

/-- String-level strip is list-level strip on the contents. -/
theorem pyStrip_mk (u : List Char) : pyStrip (String.mk u) = String.mk (pyStripList u) := rfl

/-- The source's `rstrip("\n")` before splitting is invisible after
the per-part `strip()`: part `i` of the padded split of the
newline-stripped text strips to part `i` of the plain split. -/
theorem strip_part_rstrip (raw : String) (i : Nat) (h : i < 3) :
    pyStrip ((pySplitTab (pyRstripChar '\n' raw) ++ ["", "", ""]).getD i "")
      = pyStrip ((pySplitTab raw).getD i "") := by
  rw [pad3_getD _ _ h]
  have h1 : pySplitTab (pyRstripChar '\n' raw)
      = (modLast (rstripAllChar '\n') (splitOnCharList '\t' raw.data)).map String.mk := by
    rw [pySplitTab, pyRstripChar]
    rw [show (String.mk (rstripAllChar '\n' raw.data)).data
        = rstripAllChar '\n' raw.data from rfl]
    rw [splitOnCharList_rstripAllChar]
  rw [h1, map_mk_getD, pySplitTab, map_mk_getD, pyStrip_mk, pyStrip_mk]
  exact congrArg String.mk
    (modLast_getD_strip (rstripAllChar '\n')
      (fun u => pyStripList_rstripAllChar '\n' u (by decide))
      (splitOnCharList '\t' raw.data) i)

/-- The source's per-row split equals the spec-side split of the raw
name-field. -/
theorem splitDescribeRow_eq_spec (row : Dict) :
    splitDescribeRow row = specSplitRow (colNameValue row) := by
  simp only [splitDescribeRow, specSplitRow]
  rw [strip_part_rstrip _ 0 (by omega), strip_part_rstrip _ 1 (by omega),
    strip_part_rstrip _ 2 (by omega)]

/-- The spec-side no-other-keys condition is the negation of the
source's `has_other_cols` check. -/
theorem all_keys_iff (rows : List Dict) :
    (rows.all (fun r => r.all (fun p => p.1 == "col_name" || p.1 == "")))
      = !(rows.any rowHasOtherCols) := by
  cases h : rows.any rowHasOtherCols with
  | false =>
    simp only [Bool.not_false]
    rw [List.all_eq_true]
    intro r hr
    rw [List.all_eq_true]
    intro p hp
    have h2 : rowHasOtherCols r = false := by
      rcases hro : rowHasOtherCols r with _ | _
      · rfl
      · exact absurd (List.any_eq_true.mpr ⟨r, hr, hro⟩) (by rw [h]; simp)
    rw [rowHasOtherCols, List.any_eq_false] at h2
    have hp2 := h2 p hp
    simp at hp2 ⊢
    tauto
  | true =>
    rw [List.any_eq_true] at h
    obtain ⟨r, hr, hro⟩ := h
    rw [rowHasOtherCols, List.any_eq_true] at hro
    obtain ⟨p, hp, hpp⟩ := hro
    simp only [Bool.not_true]
    rw [List.all_eq_false]
    refine ⟨r, hr, ?_⟩
    rw [Bool.not_eq_true, List.all_eq_false]
    refine ⟨p, hp, ?_⟩
    simp at hpp ⊢
    tauto

/-- C5 (amended): the Schema Normalizer splits rows if and only if the
metadata declares a `col_name` column, at least one row's name-field
contains a tab, and no row has any key other than the name-field key
(regardless of the values stored under other keys — a present key with
a null value blocks splitting); under these conditions each name-field
is split on tabs into up to three whitespace-trimmed parts (name, type,
comment), missing trailing parts emitted as empty strings, and on every
other input the output equals the input rows unchanged — including the
spec scenario splitting `id\tbigint\tprimary key` and
`name\tvarchar\t`. -/
theorem normalize_detection :
    (∀ result : QueryResult, normalizeDescribeRows result = specNormalize result) ∧
      normalizeDescribeRows ⟨["col_name"],
          [[("col_name", some "id\tbigint\tprimary key")],
           [("col_name", some "name\tvarchar\t")]], "q", "SUCCEEDED", none⟩
        = [[("col_name", some "id"), ("data_type", some "bigint"),
            ("comment", some "primary key")],
           [("col_name", some "name"), ("data_type", some "varchar"),
            ("comment", some "")]] := by
  refine ⟨fun result => ?_, rfl⟩
  rw [normalizeDescribeRows, specNormalize]
  by_cases hrows : result.rows = []
  · rw [if_pos hrows, hrows]
    simp
  · rw [if_neg hrows]
    rcases hcol : result.columns.contains "col_name" with _ | _
    · simp [hcol]
    · rcases htab : result.rows.any (fun r => strContainsChar (colNameValue r) '\t') with _ | _
      · simp [hcol, htab]
      · rcases hoth : result.rows.any rowHasOtherCols with _ | _
        · simp [hcol, htab, hoth, all_keys_iff]
          exact fun r _ => splitDescribeRow_eq_spec r
        · simp [hcol, htab, hoth, all_keys_iff]

/-- C5 counterexample: a row whose name-field contains tabs and whose
only other field is present but unpopulated (null `data_type`) is
passed through unchanged by the code, while the claim's condition (b)
("no row has any populated field other than the name-field") holds
and so predicts a split. -/
theorem normalize_populated_cex :
    normalizeDescribeRows ⟨["col_name", "data_type"],
        [[("col_name", some "a\tb\tc"), ("data_type", none)]], "q", "SUCCEEDED", none⟩
      = [[("col_name", some "a\tb\tc"), ("data_type", none)]] ∧
      ([[("col_name", some "a\tb\tc"), ("data_type", none)]] : List Dict)
        ≠ [[("col_name", some "a"), ("data_type", some "b"), ("comment", some "c")]] :=
  ⟨rfl, by decide⟩


end Athena
